import Mathlib

/-! Verification of the mikrob page pipeline (src/index.ts).

The definitions below are a shallow embedding of the TypeScript source.
Strings are manipulated as `List Char`; every chained `String.replace` of
the source is one explicit function, applied in the source's order.
External collaborators (the file system, dynamic module loading, Hono's
rendering middleware, localeCompare) enter as explicit oracles. -/

/-- Case-insensitive character match: `p` is the pair of accepted characters
for one pattern position (lowercase and uppercase form for letters, the same
character twice otherwise). -/
def cMatch (p : Char × Char) (c : Char) : Bool := c == p.1 || c == p.2

/-- Match a reversed pattern against the front of a reversed list: together
with `ciSuffix` this implements an `$`-anchored, `/i`-flagged regex
alternative of the source. -/
def sufAux : List (Char × Char) → List Char → Bool
  | [], _ => true
  | _ :: _, [] => false
  | p :: ps, c :: cs => cMatch p c && sufAux ps cs

/-- `ciSuffix pat l`: the pattern (written forward) matches the end of `l`
case-insensitively. -/
def ciSuffix (pat : List (Char × Char)) (l : List Char) : Bool :=
  sufAux pat.reverse l.reverse

/-- Pattern for the literal dot in an extension. -/
def patDot : Char × Char := ('.', '.')

/-- Pattern of the `.js` alternative of `pageFileRegex`. -/
def extJs : List (Char × Char) := [patDot, ('j', 'J'), ('s', 'S')]

/-- Pattern of the `.jsx` alternative of `pageFileRegex`. -/
def extJsx : List (Char × Char) := [patDot, ('j', 'J'), ('s', 'S'), ('x', 'X')]

/-- Pattern of the `.ts` alternative of `pageFileRegex`. -/
def extTs : List (Char × Char) := [patDot, ('t', 'T'), ('s', 'S')]

/-- Pattern of the `.tsx` alternative of `pageFileRegex`. -/
def extTsx : List (Char × Char) := [patDot, ('t', 'T'), ('s', 'S'), ('x', 'X')]

/-- Pattern of the `.json` alternative of `pageFileRegex`. -/
def extJson : List (Char × Char) := [patDot, ('j', 'J'), ('s', 'S'), ('o', 'O'), ('n', 'N')]

/-- Pattern of the `.md` alternative of `pageFileRegex`. -/
def extMd : List (Char × Char) := [patDot, ('m', 'M'), ('d', 'D')]

/-- The alternatives of `pageFileRegex = /\.(js|jsx|ts|tsx|json|md)$/i`. -/
def pageExts : List (List (Char × Char)) := [extJs, extJsx, extTs, extTsx, extJson, extMd]

/-- The alternatives of `jsTsFileRegex = /\.(js|jsx|ts|tsx)$/i`. -/
def jsTsExts : List (List (Char × Char)) := [extJs, extJsx, extTs, extTsx]

/-- `.replace(regex, '')` for an `$`-anchored alternative list: strip the one
matching extension suffix.  At most one alternative can match the string end,
so trying the alternatives in order agrees with the regex engine. -/
def stripOneExt : List (List (Char × Char)) → List Char → List Char
  | [], l => l
  | e :: es, l => if ciSuffix e l then l.take (l.length - e.length) else stripOneExt es l

/-- `.replace(/^(?!\/)/, '/')`: ensure exactly one leading slash is present
at the front (prepends when the head is not a slash, also on empty input). -/
def ensureLeadingSlash (l : List Char) : List Char :=
  if l.head? = some '/' then l else '/' :: l

/-- Worker for `collapseSlashes`; the flag records whether the previously
emitted character was a slash. -/
def collapseAux : Bool → List Char → List Char
  | _, [] => []
  | prev, c :: rest =>
    if c = '/' then
      if prev then collapseAux true rest else '/' :: collapseAux true rest
    else c :: collapseAux false rest

/-- `.replace(/\/+/g, '/')`: collapse each run of slashes to one slash. -/
def collapseSlashes (l : List Char) : List Char := collapseAux false l

/-- Consume as many leading `/index` repetitions as possible: the greedy
`(?:\/index)*` part of the source regex. -/
def eatIndexReps : List Char → List Char
  | '/' :: 'i' :: 'n' :: 'd' :: 'e' :: 'x' :: rest => eatIndexReps rest
  | l => l

/-- `.replace(/\/index(?:\/index)*/, '')` (non-global): delete the leftmost
occurrence of `/index` together with the maximal run of immediately
following `/index` repetitions, and nothing else. -/
def dropIndexRun : List Char → List Char
  | '/' :: 'i' :: 'n' :: 'd' :: 'e' :: 'x' :: rest => eatIndexReps rest
  | c :: rest => c :: dropIndexRun rest
  | [] => []

/-- `.replace(/^\/index$/, '/')`. -/
def stripIndexExact (l : List Char) : List Char :=
  if l = "/index".data then "/".data else l

/-- `.replace(/\/+$/, '')`: delete every trailing slash. -/
def stripTrailingSlashes (l : List Char) : List Char :=
  (l.reverse.dropWhile (· == '/')).reverse

/-- `.replace(/^$/, '/')`. -/
def emptyToRoot (l : List Char) : List Char := if l = [] then ['/'] else l

/-- The character-level body of `cleanPath`: the seven chained replaces of
src/index.ts, in source order. -/
def cleanList (l : List Char) : List Char :=
  emptyToRoot (stripTrailingSlashes (stripIndexExact (dropIndexRun
      (collapseSlashes (ensureLeadingSlash (stripOneExt pageExts l))))))

/-- `cleanPath` from src/index.ts. -/
def cleanPath (s : String) : String := ⟨cleanList s.data⟩

/-- `join` from node:path (an external collaborator), simplified to its
behavior on the inputs this pipeline produces: concatenation with one
separator, duplicate slashes collapsed, `"."` for the fully empty join. -/
def joinPath (a b : String) : String :=
  if a = "" ∧ b = "" then "."
  else if a = "" then b
  else if b = "" then a
  else ⟨collapseSlashes (a.data ++ '/' :: b.data)⟩

/-- The raw page descriptor as authored on disk (`PageDefinition`): the
known optional fields plus arbitrary extra key/value data. -/
structure PageDefinition where
  path : Option String := none
  status : Option Nat := none
  view : Option String := none
  redirect : Option String := none
  body : Option String := none
  extra : List (String × String) := []
deriving DecidableEq, Repr

/-- The in-memory page record (`PageData`): descriptor fields plus the
computed `file` and normalized `path`. -/
structure PageData where
  path : String
  status : Option Nat := none
  view : Option String := none
  redirect : Option String := none
  body : Option String := none
  extra : List (String × String) := []
  file : String
deriving DecidableEq, Repr

/-- The test of `jsTsFileRegex`. -/
def jsTsTest (s : String) : Bool := jsTsExts.any (fun e => ciSuffix e s.data)

/-- The test of `/\.json$/i`. -/
def jsonTest (s : String) : Bool := ciSuffix extJson s.data

/-- Does `.md` (case-insensitively) occur at the front of the list? -/
def mdStart : List Char → Bool
  | '.' :: m :: d :: _ => (m == 'm' || m == 'M') && (d == 'd' || d == 'D')
  | _ => false

/-- Worker for `mdTest`: does `.md` occur anywhere? -/
def mdAnywhere : List Char → Bool
  | [] => false
  | c :: rest => mdStart (c :: rest) || mdAnywhere rest

/-- The test of `/\.md/i`.  Note this regex of the source is *not*
`$`-anchored: it matches `.md` anywhere in the path. -/
def mdTest (s : String) : Bool := mdAnywhere s.data

/-- The external world seen by `loadPage`: the file system test
(`existsSync` and `statSync(..).isFile()` combined) and the three loaders
(`loadModule`, `loadModule` with `asJson`, `loadMarkdown`), each returning
the parsed descriptor or `none` on failure. -/
structure World where
  fs : String → Bool
  modLoad : String → Option PageDefinition
  jsonLoad : String → Option PageDefinition
  mdLoad : String → Option PageDefinition

/-- `isValidFile` from src/index.ts, with the regex test supplied. -/
def isValidFile (w : World) (filePath : String) (test : String → Bool) : Bool :=
  w.fs filePath && test filePath

/-- JS `a || b` for an optional string: `undefined` and `''` are falsy. -/
def strOr (a : Option String) (b : String) : String :=
  match a with
  | some s => if s = "" then b else s
  | none => b

/-- JS `pageDefinition.view && join(viewsDir, pageDefinition.view)`:
`undefined` stays `undefined`, the empty string stays itself, any other
view is joined onto the views root. -/
def viewJoin (viewsDir : String) (v : Option String) : Option String :=
  v.map (fun s => if s = "" then s else joinPath viewsDir s)

/-- The descriptor-selection part of `loadPage`: the three `isValidFile`
branches assign `pageDefinition` in source order, a later matching branch
overwriting an earlier one. -/
def pickDescriptor (w : World) (filePath : String) : Option PageDefinition :=
  let d1 : Option PageDefinition :=
    if isValidFile w filePath jsTsTest then w.modLoad filePath else none
  let d2 := if isValidFile w filePath jsonTest then w.jsonLoad filePath else d1
  if isValidFile w filePath mdTest then w.mdLoad filePath else d2

/-- The record-construction part of `loadPage`: the object literal merging
the descriptor with `file`, the normalized `path` and the joined `view`. -/
def finalizeRecord (fileName viewsDir filePath : String) (d : PageDefinition) : PageData :=
  { path := cleanPath (strOr d.path fileName)
    status := d.status
    view := viewJoin viewsDir d.view
    redirect := d.redirect
    body := d.body
    extra := d.extra
    file := filePath }

/-- `loadPage` from src/index.ts: select the descriptor, and return a record
exactly when the descriptor is truthy (a JS object, even `{}`, is truthy;
only `undefined` is not). -/
def loadPage (w : World) (fileName pagesDir viewsDir : String) : Option PageData :=
  (pickDescriptor w (joinPath pagesDir fileName)).map
    (finalizeRecord fileName viewsDir (joinPath pagesDir fileName))

/-- `pageA.file.split('/').length` of the sort comparator. -/
def depth (s : String) : Nat := (s.split (· = '/')).length

/-- The sort comparator of `loadPages` as a `≤`-test: `a` may precede `b`
iff the comparator value is not positive.  Deeper files compare smaller;
ties are decided by the external `localeCompare`, passed as `lc`. -/
def pageLE (lc : String → String → Int) (a b : PageData) : Bool :=
  if depth a.file = depth b.file then decide (lc a.file b.file ≤ 0)
  else decide (depth b.file < depth a.file)

/-- `loadPages` from src/index.ts.  The recursive directory enumeration is
external, so the file list is an input; a missing pages directory is the
empty enumeration.  The final `.sort` is a stable comparison sort, modelled
by `List.mergeSort`. -/
def loadPages (w : World) (lc : String → String → Int) (fileList : List String)
    (pagesDir viewsDir : String) : List PageData :=
  (fileList.filterMap (fun f => loadPage w f pagesDir viewsDir)).mergeSort (pageLE lc)

/-- An HTTP response value. -/
structure Resp where
  status : Nat
  location : Option String := none
  body : String := ""
deriving DecidableEq, Repr

/-- A value thrown by a view or by the rendering middleware: either a
fully-formed response used as control flow, or an ordinary error. -/
inductive Thrown where
  | resp (r : Resp)
  | err (msg : String)
deriving DecidableEq, Repr

/-- What a view invocation produces: renderable markup (possibly absent),
a fully-formed response returned normally, or a thrown value. -/
inductive ViewResult where
  | markup (m : Option String)
  | response (r : Resp)
  | thrown (e : Thrown)
deriving DecidableEq, Repr

/-- The argument object `{ context, pages, page }` passed to a view. -/
structure ViewInput where
  context : Nat
  pages : List PageData
  page : PageData

/-- A view: the default export of a view module. -/
def ViewFn := ViewInput → ViewResult

/-- A loaded module's default export: a callable view or some other value. -/
inductive ModVal where
  | fn (f : ViewFn)
  | value

/-- One `showWarn` diagnostic: the tagged file and the message. -/
structure Warning where
  file : String
  message : String
deriving DecidableEq, Repr

/-- Modelled from the spec: the `noViewDefined` message of locale.json
(that file is not under src/); its exact wording is immaterial here. -/
def noViewDefined : String := "no view defined"

/-- Modelled from the spec: the `viewNotFoundOrNotSupported` message of
locale.json (not under src/). -/
def viewNotFoundOrNotSupported : String := "view not found or not supported"

/-- Modelled from the spec: the `noDefaultExport` message of locale.json
(not under src/). -/
def noDefaultExport : String := "no default export"

/-- `loadView` from src/index.ts.  `lm` is the `loadModule` oracle for view
modules: the loaded default export (or `none` on load failure) together
with the warnings `loadModule` printed itself. -/
def loadView (w : World) (lm : String → Option ModVal × List Warning)
    (pd : PageData) : Option ViewFn × List Warning :=
  match pd.view with
  | none => (none, [⟨pd.file, noViewDefined⟩])
  | some v =>
    if v = "" then (none, [⟨pd.file, noViewDefined⟩])
    else if !(w.fs v && jsTsTest v) then (none, [⟨v, viewNotFoundOrNotSupported⟩])
    else
      match lm v with
      | (some (.fn f), ws) => (some f, ws)
      | (some .value, ws) => (none, ws ++ [⟨v, noDefaultExport⟩])
      | (none, ws) => (none, ws ++ [⟨v, noDefaultExport⟩])

/-- A compiled request handler: either an unconditional redirect carrying
the record's optional status, or a view handler closing over the record
(with `redirect` destructured away), the resolved view and the page list. -/
inductive Handler where
  | redirect (dest : String) (status : Option Nat)
  | page (pd : PageData) (view : ViewFn) (pages : List PageData)

/-- The `{ redirect, ...pageData }` destructuring of `createPage`. -/
def stripRedirect (pd : PageData) : PageData := { pd with redirect := none }

/-- The non-redirect arm of `createPage`: resolve the view; absent view
means no handler. -/
def createPageView (w : World) (lm : String → Option ModVal × List Warning)
    (rest : PageData) (pageList : List PageData) : Option Handler × List Warning :=
  match loadView w lm rest with
  | (none, ws) => (none, ws)
  | (some f, ws) => (some (.page rest f pageList), ws)

/-- `createPage` from src/index.ts.  A truthy `redirect` (set and nonempty)
short-circuits into a redirect handler with no view resolution. -/
def createPage (w : World) (lm : String → Option ModVal × List Warning)
    (pd : PageData) (pageList : List PageData) : Option Handler × List Warning :=
  match pd.redirect with
  | some dest =>
    if dest = "" then createPageView w lm (stripRedirect pd) pageList
    else (some (.redirect dest (stripRedirect pd).status), [])
  | none => createPageView w lm (stripRedirect pd) pageList

/-- Modelled from the spec: Hono's `context.redirect` (external) defaults
to HTTP 302 when no status is supplied. -/
def redirectStatus (st : Option Nat) : Nat := st.getD 302

/-- JS truthiness of `if (pageData.status)`: the status is applied exactly
when set and nonzero. -/
def statusSet (st : Option Nat) : Option Nat :=
  match st with
  | some s => if s = 0 then none else some s
  | none => none

/-- `page || ''` applied to the view's markup output. -/
def orEmpty (m : Option String) : String := m.getD ""

/-- Run one compiled handler on a request.  `render` is the rendering
middleware (external): it receives the status applied on the context and
the markup.  A value thrown inside the handler body escapes as `.error`;
the handler itself installs no catch. -/
def runHandler (render : Option Nat → String → Resp) (h : Handler) (ctx : Nat) :
    Except Thrown Resp :=
  match h with
  | .redirect dest st => .ok { status := redirectStatus st, location := some dest }
  | .page pd f pages =>
    match f ⟨ctx, pages, pd⟩ with
    | .thrown e => .error e
    | .response r => .ok r
    | .markup m => .ok (render (statusSet pd.status) (orEmpty m))

/-- `createPages` from src/index.ts: register, in list order, a GET route
at `record.path` for every record that compiles to a handler. -/
def createPages (w : World) (lm : String → Option ModVal × List Warning)
    (pageList : List PageData) : List (String × Handler) :=
  pageList.filterMap (fun pd => ((createPage w lm pd pageList).1).map (fun h => (pd.path, h)))


/-! Auxiliary predicates used to state properties: occurrence of a literal
character sequence inside a list. -/

/-- Does the list start with the given literal character sequence? -/
def startsWithSeq : List Char → List Char → Bool
  | [], _ => true
  | _ :: _, [] => false
  | x :: xs, c :: cs => x == c && startsWithSeq xs cs

/-- Does the literal character sequence occur anywhere in the list? -/
def hasSeq (pat : List Char) : List Char → Bool
  | [] => pat.isEmpty
  | c :: rest => startsWithSeq pat (c :: rest) || hasSeq pat rest

/-- The characters of the literal `index` of the source regexes. -/
def idxPat : List Char := ['i', 'n', 'd', 'e', 'x']

lemma slashIdx_eq : "/index".data = '/' :: idxPat := rfl

lemma startsWithSeq_append (pat l1 l2 : List Char) (h : startsWithSeq pat l1 = true) :
    startsWithSeq pat (l1 ++ l2) = true := by
  induction pat generalizing l1 with
  | nil => simp [startsWithSeq]
  | cons x xs ih =>
    cases l1 with
    | nil => simp [startsWithSeq] at h
    | cons c cs =>
      simp only [startsWithSeq, Bool.and_eq_true, beq_iff_eq] at h
      simp only [List.cons_append, startsWithSeq, Bool.and_eq_true, beq_iff_eq]
      exact ⟨h.1, ih cs h.2⟩

lemma hasSeq_append_left (pat l1 l2 : List Char) (hne : pat ≠ [])
    (h : hasSeq pat l1 = true) : hasSeq pat (l1 ++ l2) = true := by
  induction l1 with
  | nil =>
    simp only [hasSeq, List.isEmpty_iff] at h
    exact absurd h hne
  | cons c cs ih =>
    simp only [hasSeq, Bool.or_eq_true] at h
    rcases h with h | h
    · simp only [List.cons_append, hasSeq, Bool.or_eq_true]
      exact Or.inl (startsWithSeq_append pat (c :: cs) l2 h)
    · simp only [List.cons_append, hasSeq, Bool.or_eq_true]
      exact Or.inr (ih h)

lemma hasSeq_append_right (pat l1 l2 : List Char) (h : hasSeq pat l2 = true) :
    hasSeq pat (l1 ++ l2) = true := by
  induction l1 with
  | nil => simpa using h
  | cons c cs ih =>
    simp only [List.cons_append, hasSeq, Bool.or_eq_true]
    exact Or.inr ih

lemma sufAux_mem (pr : List (Char × Char)) (lr : List Char) (h : sufAux pr lr = true)
    (p : Char × Char) (hp : p ∈ pr) : ∃ c ∈ lr, cMatch p c = true := by
  induction pr generalizing lr with
  | nil => cases hp
  | cons q qs ih =>
    cases lr with
    | nil => simp [sufAux] at h
    | cons c cs =>
      simp only [sufAux, Bool.and_eq_true] at h
      rcases List.mem_cons.mp hp with rfl | hp
      · exact ⟨c, List.mem_cons_self c cs, h.1⟩
      · obtain ⟨d, hd, hm⟩ := ih cs h.2 hp
        exact ⟨d, List.mem_cons_of_mem c hd, hm⟩

lemma ciSuffix_dot (pat : List (Char × Char)) (l : List Char)
    (h : ciSuffix pat l = true) (hd : patDot ∈ pat) : '.' ∈ l := by
  obtain ⟨c, hc, hm⟩ := sufAux_mem pat.reverse l.reverse h patDot (List.mem_reverse.mpr hd)
  have hcd : c = '.' := by
    simp only [cMatch, patDot, Bool.or_eq_true, beq_iff_eq] at hm
    rcases hm with h1 | h1 <;> exact h1
  exact List.mem_reverse.mp (hcd ▸ hc)

lemma pageExts_dot : ∀ e ∈ pageExts, patDot ∈ e := by decide

lemma stripOneExt_take (es : List (List (Char × Char))) (l : List Char) :
    ∃ n, stripOneExt es l = l.take n := by
  induction es with
  | nil => exact ⟨l.length, (List.take_length l).symm⟩
  | cons e es ih =>
    unfold stripOneExt
    by_cases hc : ciSuffix e l = true
    · exact ⟨l.length - e.length, by rw [if_pos hc]⟩
    · obtain ⟨n, hn⟩ := ih
      exact ⟨n, by rw [if_neg hc]; exact hn⟩

lemma stripOneExt_no_dot (es : List (List (Char × Char))) (l : List Char)
    (hes : ∀ e ∈ es, patDot ∈ e) (h : '.' ∉ l) : stripOneExt es l = l := by
  induction es with
  | nil => rfl
  | cons e es ih =>
    unfold stripOneExt
    by_cases hc : ciSuffix e l = true
    · exact absurd (ciSuffix_dot e l hc (hes e (List.mem_cons_self e es))) h
    · rw [if_neg hc]
      exact ih (fun d hd => hes d (List.mem_cons_of_mem e hd))

/-! Structural lemmas about the individual replace steps. -/

lemma collapseAux_mem (l : List Char) : ∀ (b : Bool) (c : Char), c ∈ collapseAux b l → c ∈ l := by
  induction l with
  | nil => intro b c h; simp [collapseAux] at h
  | cons a rest ih =>
    intro b c h
    by_cases ha : a = '/'
    · subst ha
      cases b with
      | true =>
        simp only [collapseAux, if_pos rfl, if_pos] at h
        exact List.mem_cons_of_mem _ (ih true c h)
      | false =>
        simp only [collapseAux, if_pos rfl] at h
        rcases List.mem_cons.mp h with rfl | h
        · exact List.mem_cons_self _ _
        · exact List.mem_cons_of_mem _ (ih true c h)
    · simp only [collapseAux, if_neg ha] at h
      rcases List.mem_cons.mp h with rfl | h
      · exact List.mem_cons_self _ _
      · exact List.mem_cons_of_mem _ (ih false c h)

lemma collapseCP (pat : List Char) (hp : '/' ∉ pat) :
    ∀ l, startsWithSeq pat (collapseAux false l) = true → startsWithSeq pat l = true := by
  intro l
  induction l generalizing pat with
  | nil =>
    intro h
    cases pat with
    | nil => rfl
    | cons x xs => simp [collapseAux, startsWithSeq] at h
  | cons a rest ih =>
    intro h
    by_cases ha : a = '/'
    · subst ha
      cases pat with
      | nil => rfl
      | cons x xs =>
        simp only [collapseAux, if_pos rfl] at h
        simp only [startsWithSeq, Bool.and_eq_true, beq_iff_eq] at h
        exact absurd (h.1 ▸ List.mem_cons_self x xs) hp
    · cases pat with
      | nil => rfl
      | cons x xs =>
        simp only [collapseAux, if_neg ha] at h
        simp only [startsWithSeq, Bool.and_eq_true, beq_iff_eq] at h ⊢
        refine ⟨h.1, ih xs (fun hx => hp (List.mem_cons_of_mem x hx)) h.2⟩

lemma collapseCI (pat : List Char) (hp : '/' ∉ pat) (hne : pat ≠ []) :
    ∀ l (b : Bool), hasSeq pat (collapseAux b l) = true → hasSeq pat l = true := by
  intro l
  induction l with
  | nil =>
    intro b h
    simp only [collapseAux, hasSeq, List.isEmpty_iff] at h
    exact absurd h hne
  | cons a rest ih =>
    intro b h
    by_cases ha : a = '/'
    · subst ha
      cases b with
      | true =>
        simp only [collapseAux, if_pos rfl] at h
        simp only [hasSeq, Bool.or_eq_true]
        exact Or.inr (ih true h)
      | false =>
        simp only [collapseAux, if_pos rfl] at h
        simp only [hasSeq, Bool.or_eq_true] at h
        rcases h with h | h
        · cases pat with
          | nil => exact absurd rfl hne
          | cons x xs =>
            simp only [startsWithSeq, Bool.and_eq_true, beq_iff_eq] at h
            exact absurd (h.1 ▸ List.mem_cons_self x xs) hp
        · simp only [hasSeq, Bool.or_eq_true]
          exact Or.inr (ih true h)
    · simp only [collapseAux, if_neg ha] at h
      simp only [hasSeq, Bool.or_eq_true] at h ⊢
      rcases h with h | h
      · cases pat with
        | nil => exact absurd rfl hne
        | cons x xs =>
          simp only [startsWithSeq, Bool.and_eq_true, beq_iff_eq] at h ⊢
          exact Or.inl ⟨h.1, collapseCP xs (fun hx => hp (List.mem_cons_of_mem x hx)) rest h.2⟩
      · exact Or.inr (ih false h)

lemma collapse_head (l : List Char) (h : l.head? = some '/') :
    (collapseAux false l).head? = some '/' := by
  cases l with
  | nil => simp at h
  | cons a rest =>
    simp only [List.head?_cons, Option.some.injEq] at h
    subst h
    simp [collapseAux]

lemma collapse_ne_nil (l : List Char) (h : l ≠ []) : collapseAux false l ≠ [] := by
  cases l with
  | nil => exact absurd rfl h
  | cons a rest =>
    by_cases ha : a = '/'
    · subst ha; simp [collapseAux]
    · simp [collapseAux, if_neg ha]

/-- A list with no two adjacent slashes (the fixed points of
`collapseSlashes`). -/
def noDupSlash : List Char → Bool
  | [] => true
  | [_] => true
  | a :: b :: rest => !(a == '/' && b == '/') && noDupSlash (b :: rest)

lemma noDupSlash_tail (a : Char) (l : List Char) (h : noDupSlash (a :: l) = true) :
    noDupSlash l = true := by
  cases l with
  | nil => rfl
  | cons b rest =>
    simp only [noDupSlash, Bool.and_eq_true] at h
    exact h.2

lemma collapse_noDup (l : List Char) :
    (∀ b, noDupSlash (collapseAux b l) = true) ∧ (collapseAux true l).head? ≠ some '/' := by
  induction l with
  | nil => exact ⟨fun b => rfl, by simp [collapseAux]⟩
  | cons a rest ih =>
    obtain ⟨ih1, ih2⟩ := ih
    by_cases ha : a = '/'
    · subst ha
      constructor
      · intro b
        cases b with
        | true => simpa [collapseAux] using ih1 true
        | false =>
          simp only [collapseAux, if_pos rfl]
          cases hX : collapseAux true rest with
          | nil => rfl
          | cons x xs =>
            have hx : x ≠ '/' := by
              intro hcon
              exact ih2 (by rw [hX, hcon, List.head?_cons])
            simp only [noDupSlash, Bool.and_eq_true, Bool.not_eq_true']
            constructor
            · simp [hx]
            · rw [← hX]; exact ih1 true
      · simpa [collapseAux] using ih2
    · constructor
      · intro b
        simp only [collapseAux, if_neg ha]
        cases hX : collapseAux false rest with
        | nil => rfl
        | cons x xs =>
          simp only [noDupSlash, Bool.and_eq_true, Bool.not_eq_true']
          constructor
          · simp [ha]
          · rw [← hX]; exact ih1 false
      · simp only [collapseAux, if_neg ha, List.head?_cons]
        intro hcon
        exact ha (Option.some.injEq _ _ ▸ hcon)

lemma collapse_id (l : List Char) (h : noDupSlash l = true) :
    collapseAux false l = l ∧ (l.head? ≠ some '/' → collapseAux true l = l) := by
  induction l with
  | nil => exact ⟨rfl, fun _ => rfl⟩
  | cons a rest ih =>
    obtain ⟨ihf, iht⟩ := ih (noDupSlash_tail a rest h)
    by_cases ha : a = '/'
    · subst ha
      have hrest : collapseAux true rest = rest := by
        cases rest with
        | nil => rfl
        | cons b rs =>
          by_cases hb : b = '/'
          · subst hb; simp [noDupSlash] at h
          · exact iht (by simp [List.head?_cons, hb])
      constructor
      · simp [collapseAux, hrest]
      · intro hcon
        simp at hcon
    · constructor
      · simp [collapseAux, if_neg ha, ihf]
      · intro _
        simp [collapseAux, if_neg ha, ihf]

lemma noDup_append (l1 l2 : List Char) (h : noDupSlash (l1 ++ l2) = true) :
    noDupSlash l1 = true := by
  induction l1 with
  | nil => rfl
  | cons a rest ih =>
    cases rest with
    | nil => rfl
    | cons b rs =>
      simp only [List.cons_append, noDupSlash, Bool.and_eq_true] at h
      have h2 : noDupSlash (b :: rs) = true := ih (by simpa using h.2)
      simp only [noDupSlash, Bool.and_eq_true]
      exact ⟨h.1, h2⟩

lemma eatIndexReps_ex (l : List Char) : ∃ u, u ++ eatIndexReps l = l := by
  induction l using eatIndexReps.induct with
  | case1 rest ih =>
    obtain ⟨u, hu⟩ := ih
    refine ⟨'/' :: 'i' :: 'n' :: 'd' :: 'e' :: 'x' :: u, ?_⟩
    simp only [eatIndexReps, List.cons_append, hu]
  | case2 l hl =>
    exact ⟨[], by rw [List.nil_append, eatIndexReps.eq_2 l hl]⟩

lemma hasSeq_slashIdx (rest : List Char) :
    hasSeq idxPat ('/' :: 'i' :: 'n' :: 'd' :: 'e' :: 'x' :: rest) = true := by
  simp [hasSeq, startsWithSeq, idxPat]

lemma dropIndexRun_mem (l : List Char) (c : Char) (h : c ∈ dropIndexRun l) : c ∈ l := by
  induction l using dropIndexRun.induct with
  | case1 rest =>
    simp only [dropIndexRun] at h
    obtain ⟨u, hu⟩ := eatIndexReps_ex rest
    have : c ∈ rest := hu ▸ List.mem_append_right u h
    simp [this]
  | case2 a rest hne ih =>
    simp only [dropIndexRun] at h
    rcases List.mem_cons.mp h with rfl | h
    · exact List.mem_cons_self _ _
    · exact List.mem_cons_of_mem _ (ih h)
  | case3 => simp [dropIndexRun] at h

lemma hasSeq_cons_of (pat : List Char) (c : Char) (rest : List Char)
    (h : hasSeq pat rest = true) : hasSeq pat (c :: rest) = true := by
  show (startsWithSeq pat (c :: rest) || hasSeq pat rest) = true
  rw [h, Bool.or_true]

lemma dropIndexRun_id (l : List Char) (h : hasSeq idxPat l = false) : dropIndexRun l = l := by
  induction l using dropIndexRun.induct with
  | case1 rest =>
    rw [hasSeq_slashIdx rest] at h
    simp at h
  | case2 a rest hne ih =>
    have h2 : hasSeq idxPat rest = false := by
      cases hb : hasSeq idxPat rest with
      | false => rfl
      | true =>
        rw [hasSeq_cons_of idxPat a rest hb] at h
        simp at h
    rw [dropIndexRun.eq_2 a rest hne, ih h2]
  | case3 => rfl

lemma dropWhile_ex (p : Char → Bool) (m : List Char) : ∃ u, u ++ m.dropWhile p = m := by
  induction m with
  | nil => exact ⟨[], rfl⟩
  | cons c cs ih =>
    by_cases h : p c = true
    · obtain ⟨u, hu⟩ := ih
      exact ⟨c :: u, by simp [List.dropWhile_cons, h, hu]⟩
    · exact ⟨[], by simp [List.dropWhile_cons, h]⟩

lemma dropWhile_head_not (p : Char → Bool) (m : List Char) (c : Char)
    (h : (m.dropWhile p).head? = some c) : p c = false := by
  induction m with
  | nil => simp [List.dropWhile] at h
  | cons a rest ih =>
    by_cases ha : p a = true
    · rw [List.dropWhile_cons, if_pos ha] at h
      exact ih h
    · rw [List.dropWhile_cons, if_neg ha, List.head?_cons] at h
      have : a = c := by simpa using h
      subst this
      simpa using ha

lemma stripTrailing_ex (l : List Char) : ∃ u, stripTrailingSlashes l ++ u = l := by
  obtain ⟨u, hu⟩ := dropWhile_ex (· == '/') l.reverse
  refine ⟨u.reverse, ?_⟩
  unfold stripTrailingSlashes
  have := congrArg List.reverse hu
  simpa using this

lemma stripTrailing_getLast (l : List Char) :
    (stripTrailingSlashes l).getLast? ≠ some '/' := by
  unfold stripTrailingSlashes
  rw [List.getLast?_reverse]
  intro hcon
  have := dropWhile_head_not (· == '/') l.reverse '/' hcon
  simp at this

lemma stripTrailing_id (l : List Char) (h : l.getLast? ≠ some '/') :
    stripTrailingSlashes l = l := by
  unfold stripTrailingSlashes
  cases hr : l.reverse with
  | nil =>
    have : l = [] := List.reverse_eq_nil_iff.mp hr
    simp [this]
  | cons c cs =>
    have hc : c ≠ '/' := by
      intro hcon
      apply h
      rw [← List.head?_reverse, hr, hcon, List.head?_cons]
    rw [List.dropWhile_cons, if_neg (by simp [hc]), ← hr, List.reverse_reverse]

lemma emptyToRoot_ne_nil (l : List Char) : emptyToRoot l ≠ [] := by
  unfold emptyToRoot
  by_cases h : l = []
  · simp [h]
  · simp [h]

/-! Transport lemmas along the whole `cleanList` pipeline. -/

lemma emptyToRoot_mem (l : List Char) (c : Char) (h : c ∈ emptyToRoot l) : c ∈ l ∨ c = '/' := by
  unfold emptyToRoot at h
  by_cases hl : l = []
  · rw [if_pos hl] at h
    exact Or.inr (by simpa using h)
  · rw [if_neg hl] at h
    exact Or.inl h

lemma stripTrailing_mem (l : List Char) (c : Char) (h : c ∈ stripTrailingSlashes l) : c ∈ l := by
  obtain ⟨u, hu⟩ := stripTrailing_ex l
  exact hu ▸ List.mem_append_left u h

lemma stripIndexExact_mem (l : List Char) (c : Char) (h : c ∈ stripIndexExact l) :
    c ∈ l ∨ c = '/' := by
  unfold stripIndexExact at h
  by_cases hl : l = "/index".data
  · rw [if_pos hl] at h
    exact Or.inr (by simpa using h)
  · rw [if_neg hl] at h
    exact Or.inl h

lemma ensure_mem (l : List Char) (c : Char) (h : c ∈ ensureLeadingSlash l) : c ∈ l ∨ c = '/' := by
  unfold ensureLeadingSlash at h
  by_cases hl : l.head? = some '/'
  · rw [if_pos hl] at h
    exact Or.inl h
  · rw [if_neg hl] at h
    rcases List.mem_cons.mp h with rfl | h
    · exact Or.inr rfl
    · exact Or.inl h

lemma stripOneExt_mem (es : List (List (Char × Char))) (l : List Char) (c : Char)
    (h : c ∈ stripOneExt es l) : c ∈ l := by
  obtain ⟨n, hn⟩ := stripOneExt_take es l
  rw [hn] at h
  exact (List.take_sublist n l).subset h

lemma cleanList_mem (l : List Char) (c : Char) (h : c ∈ cleanList l) : c ∈ l ∨ c = '/' := by
  unfold cleanList at h
  rcases emptyToRoot_mem _ c h with h | h
  case inr => exact Or.inr h
  have h5 := stripTrailing_mem _ c h
  rcases stripIndexExact_mem _ c h5 with h4 | h4
  case inr => exact Or.inr h4
  have h3 := dropIndexRun_mem _ c h4
  have h2 := collapseAux_mem _ false c h3
  rcases ensure_mem _ c h2 with h1 | h1
  case inr => exact Or.inr h1
  exact Or.inl (stripOneExt_mem pageExts l c h1)

lemma stripOneExt_hasSeq (es : List (List (Char × Char))) (l : List Char)
    (h : hasSeq idxPat l = false) : hasSeq idxPat (stripOneExt es l) = false := by
  obtain ⟨n, hn⟩ := stripOneExt_take es l
  rw [hn]
  cases hb : hasSeq idxPat (l.take n) with
  | false => rfl
  | true =>
    have := hasSeq_append_left idxPat (l.take n) (l.drop n) (by decide) hb
    rw [List.take_append_drop] at this
    rw [h] at this
    simp at this

lemma hasSeq_cons_slash (l : List Char) : hasSeq idxPat ('/' :: l) = hasSeq idxPat l := by
  show (startsWithSeq idxPat ('/' :: l) || hasSeq idxPat l) = hasSeq idxPat l
  have hsw : startsWithSeq idxPat ('/' :: l) = false := by
    simp [startsWithSeq, idxPat]
  rw [hsw, Bool.false_or]

lemma ensure_hasSeq (l : List Char) (h : hasSeq idxPat l = false) :
    hasSeq idxPat (ensureLeadingSlash l) = false := by
  unfold ensureLeadingSlash
  by_cases hl : l.head? = some '/'
  · rw [if_pos hl]; exact h
  · rw [if_neg hl, hasSeq_cons_slash]; exact h

lemma collapse_hasSeq (l : List Char) (h : hasSeq idxPat l = false) :
    hasSeq idxPat (collapseSlashes l) = false := by
  cases hb : hasSeq idxPat (collapseSlashes l) with
  | false => rfl
  | true =>
    have := collapseCI idxPat (by decide) (by decide) l false hb
    rw [h] at this
    simp at this

lemma stripIndexExact_id (l : List Char) (h : hasSeq idxPat l = false) :
    stripIndexExact l = l := by
  unfold stripIndexExact
  rw [if_neg]
  intro hcon
  rw [slashIdx_eq] at hcon
  rw [hcon] at h
  have : hasSeq idxPat ('/' :: idxPat) = true := by decide
  rw [h] at this
  simp at this

lemma stripTrailing_hasSeq (l : List Char) (h : hasSeq idxPat l = false) :
    hasSeq idxPat (stripTrailingSlashes l) = false := by
  obtain ⟨u, hu⟩ := stripTrailing_ex l
  cases hb : hasSeq idxPat (stripTrailingSlashes l) with
  | false => rfl
  | true =>
    have := hasSeq_append_left idxPat _ u (by decide) hb
    rw [hu, h] at this
    simp at this

lemma emptyToRoot_hasSeq (l : List Char) (h : hasSeq idxPat l = false) :
    hasSeq idxPat (emptyToRoot l) = false := by
  unfold emptyToRoot
  by_cases hl : l = []
  · rw [if_pos hl]; decide
  · rw [if_neg hl]; exact h

lemma cleanList_eq_noIndex (l : List Char) (h : hasSeq idxPat l = false) :
    cleanList l = emptyToRoot (stripTrailingSlashes
      (collapseSlashes (ensureLeadingSlash (stripOneExt pageExts l)))) := by
  have h3 : hasSeq idxPat (collapseSlashes (ensureLeadingSlash (stripOneExt pageExts l))) = false :=
    collapse_hasSeq _ (ensure_hasSeq _ (stripOneExt_hasSeq pageExts l h))
  unfold cleanList
  rw [dropIndexRun_id _ h3, stripIndexExact_id _ h3]

lemma cleanList_hasSeq (l : List Char) (h : hasSeq idxPat l = false) :
    hasSeq idxPat (cleanList l) = false := by
  have h3 : hasSeq idxPat (collapseSlashes (ensureLeadingSlash (stripOneExt pageExts l))) = false :=
    collapse_hasSeq _ (ensure_hasSeq _ (stripOneExt_hasSeq pageExts l h))
  rw [cleanList_eq_noIndex l h]
  exact emptyToRoot_hasSeq _ (stripTrailing_hasSeq _ h3)

lemma ensure_head (l : List Char) : (ensureLeadingSlash l).head? = some '/' := by
  unfold ensureLeadingSlash
  by_cases hl : l.head? = some '/'
  · rw [if_pos hl]; exact hl
  · rw [if_neg hl]; rfl

lemma cleanList_head (l : List Char) (h : hasSeq idxPat l = false) :
    (cleanList l).head? = some '/' := by
  rw [cleanList_eq_noIndex l h]
  have hXhead : (collapseSlashes (ensureLeadingSlash (stripOneExt pageExts l))).head? = some '/' :=
    collapse_head _ (ensure_head _)
  cases hu : stripTrailingSlashes (collapseSlashes (ensureLeadingSlash (stripOneExt pageExts l))) with
  | nil => simp [emptyToRoot]
  | cons a as =>
    obtain ⟨u, hEx⟩ := stripTrailing_ex (collapseSlashes (ensureLeadingSlash (stripOneExt pageExts l)))
    rw [hu] at hEx
    have ha : a = '/' := by
      rw [← hEx] at hXhead
      simpa using hXhead
    rw [emptyToRoot, if_neg (by simp), List.head?_cons, ha]

lemma cleanList_noDup (l : List Char) (h : hasSeq idxPat l = false) :
    noDupSlash (cleanList l) = true := by
  rw [cleanList_eq_noIndex l h]
  have hX : noDupSlash (collapseSlashes (ensureLeadingSlash (stripOneExt pageExts l))) = true :=
    (collapse_noDup _).1 false
  obtain ⟨u, hEx⟩ := stripTrailing_ex (collapseSlashes (ensureLeadingSlash (stripOneExt pageExts l)))
  have h6 : noDupSlash (stripTrailingSlashes
      (collapseSlashes (ensureLeadingSlash (stripOneExt pageExts l)))) = true :=
    noDup_append _ u (by rw [hEx]; exact hX)
  cases hu : stripTrailingSlashes (collapseSlashes (ensureLeadingSlash (stripOneExt pageExts l))) with
  | nil => rfl
  | cons a as =>
    rw [emptyToRoot, if_neg (by simp)]
    rw [hu] at h6
    exact h6

lemma cleanList_fix (l : List Char) (h1 : '.' ∉ l) (h2 : hasSeq idxPat l = false) :
    cleanList (cleanList l) = cleanList l := by
  set t := cleanList l with ht
  have f1 : '.' ∉ t := fun hc => (cleanList_mem l '.' hc).elim h1 (by decide)
  have f2 : hasSeq idxPat t = false := cleanList_hasSeq l h2
  have f3 : t.head? = some '/' := cleanList_head l h2
  have f4 : noDupSlash t = true := cleanList_noDup l h2
  have s1 : stripOneExt pageExts t = t := stripOneExt_no_dot _ _ pageExts_dot f1
  have s2 : ensureLeadingSlash t = t := by unfold ensureLeadingSlash; rw [if_pos f3]
  have s3 : collapseSlashes t = t := (collapse_id t f4).1
  have s4 : dropIndexRun t = t := dropIndexRun_id t f2
  have s5 : stripIndexExact t = t := stripIndexExact_id t f2
  have hmain : emptyToRoot (stripTrailingSlashes t) = t := by
    by_cases hroot : t = ['/']
    · rw [hroot]; decide
    · have hstruct : t = emptyToRoot (stripTrailingSlashes (stripIndexExact (dropIndexRun
          (collapseSlashes (ensureLeadingSlash (stripOneExt pageExts l)))))) := ht
      cases hu : stripTrailingSlashes (stripIndexExact (dropIndexRun
          (collapseSlashes (ensureLeadingSlash (stripOneExt pageExts l))))) with
      | nil => exact absurd (by rw [hstruct, hu]; rfl) hroot
      | cons a as =>
        have htu : t = a :: as := by
          rw [hstruct, hu, emptyToRoot, if_neg (by simp)]
        have hlast : t.getLast? ≠ some '/' := by
          have hg := stripTrailing_getLast (stripIndexExact (dropIndexRun
            (collapseSlashes (ensureLeadingSlash (stripOneExt pageExts l)))))
          rw [hu] at hg
          rw [htu]
          exact hg
        rw [stripTrailing_id t hlast, emptyToRoot, if_neg (by rw [htu]; simp)]
  show cleanList t = t
  unfold cleanList
  rw [s1, s2]
  show emptyToRoot (stripTrailingSlashes (stripIndexExact (dropIndexRun (collapseSlashes t)))) = t
  rw [s3, s4, s5]
  exact hmain

/-! Claim theorems about the path normalizer. -/

/-- C1 (amended): `cleanPath` always terminates and returns a string (it is
a total function by construction), but it is not idempotent on every
string; it is idempotent on every input that contains no dot and no
occurrence of the character sequence `index`. -/
theorem cleanPath_idem_of_plain (s : String) (h1 : '.' ∉ s.data)
    (h2 : hasSeq idxPat s.data = false) :
    cleanPath (cleanPath s) = cleanPath s := by
  show (⟨cleanList (cleanList s.data)⟩ : String) = ⟨cleanList s.data⟩
  rw [cleanList_fix s.data h1 h2]

/-- Witness for C1 at the concrete input `"//about//"`. -/
theorem cleanPath_idem_of_plain_witness :
    ('.' ∉ "//about//".data) ∧ hasSeq idxPat "//about//".data = false ∧
    cleanPath (cleanPath "//about//") = cleanPath "//about//" :=
  ⟨by decide, by decide, cleanPath_idem_of_plain "//about//" (by decide) (by decide)⟩

/-- C1 counterexample: `cleanPath` is not idempotent as claimed.  Stripping
the trailing slash of `"a.md/"` exposes the `.md` suffix, which only the
second application removes: `cleanPath "a.md/" = "/a.md"` but
`cleanPath "/a.md" = "/a"`. -/
theorem cleanPath_not_idem : cleanPath (cleanPath "a.md/") ≠ cleanPath "a.md/" := by decide

/-- C3 (amended): `cleanPath` removes only the first maximal run of
consecutive `/index` substrings (the replace is non-global and not
segment-aware), so not every `index` segment collapses; the three edge
cases fixed by test do hold for every recognized extension. -/
theorem cleanPath_index_examples (ext : String)
    (h : ext ∈ ["js", "jsx", "ts", "tsx", "json", "md"]) :
    cleanPath ("index." ++ ext) = "/" ∧
    cleanPath ("blog/index/index." ++ ext) = "/blog" ∧
    cleanPath "//about//" = "/about" := by
  fin_cases h <;> exact ⟨by decide, by decide, by decide⟩

/-- Witness for C3 at the concrete extension `"ts"`. -/
theorem cleanPath_index_examples_witness :
    cleanPath ("index." ++ "ts") = "/" ∧
    cleanPath ("blog/index/index." ++ "ts") = "/blog" ∧
    cleanPath "//about//" = "/about" :=
  cleanPath_index_examples "ts" (by decide)

/-- C3 counterexample: an embedded `index` segment that is not part of the
first `/index` run survives: `cleanPath "a/index/b/index.ts"` is
`"/a/b/index"`, which still contains the sequence `index`, not `"/a/b"`. -/
theorem cleanPath_index_survives :
    cleanPath "a/index/b/index.ts" = "/a/b/index" ∧
    hasSeq idxPat (cleanPath "a/index/b/index.ts").data = true :=
  ⟨by decide, by decide⟩

/-- C10: for every input string the output of `cleanPath` either is the
root path `"/"` or does not end with a path separator. -/
theorem cleanPath_no_trailing (s : String) :
    cleanPath s = "/" ∨ (cleanPath s).data.getLast? ≠ some '/' := by
  show (⟨cleanList s.data⟩ : String) = "/" ∨ (cleanList s.data).getLast? ≠ some '/'
  unfold cleanList
  cases hu : stripTrailingSlashes (stripIndexExact (dropIndexRun (collapseSlashes
      (ensureLeadingSlash (stripOneExt pageExts s.data))))) with
  | nil => left; decide
  | cons a as =>
    right
    rw [emptyToRoot, if_neg (by simp)]
    have hg := stripTrailing_getLast (stripIndexExact (dropIndexRun (collapseSlashes
      (ensureLeadingSlash (stripOneExt pageExts s.data)))))
    rw [hu] at hg
    exact hg

/-! Claim theorems about `loadPage`. -/

lemma joinPath_ne (a b : String) : joinPath a b ≠ "" := by
  unfold joinPath
  by_cases h1 : a = "" ∧ b = ""
  · rw [if_pos h1]; decide
  · rw [if_neg h1]
    by_cases h2 : a = ""
    · rw [if_pos h2]
      intro hc
      exact h1 ⟨h2, hc⟩
    · rw [if_neg h2]
      by_cases h3 : b = ""
      · rw [if_pos h3]; exact h2
      · rw [if_neg h3]
        intro hc
        have hne : a.data ++ '/' :: b.data ≠ [] := by simp
        apply collapse_ne_nil _ hne
        have hdata : (⟨collapseSlashes (a.data ++ '/' :: b.data)⟩ : String).data =
            ("" : String).data := by rw [hc]
        simpa using hdata

/-- C2 (amended): every record returned by `loadPage` has `file` equal to
the join of the pages root and the file name (hence non-empty), and —
for the descriptor `d` actually selected by `pickDescriptor`, to which the
whole record is tied — `path` equal to `cleanPath` of `d`'s truthy `path`
field (the explicit path when set and non-empty, else the file name); the
path begins with `/` whenever that input to `cleanPath` does not contain
the character sequence `index` (the `/index`-removal step of `cleanPath`
can otherwise strip the leading slash). -/
theorem loadPage_record_invariants (w : World) (fn pdir vdir : String) (r : PageData)
    (h : loadPage w fn pdir vdir = some r) :
    r.file = joinPath pdir fn ∧ r.file ≠ "" ∧
    ∃ d : PageDefinition, pickDescriptor w (joinPath pdir fn) = some d ∧
      r = finalizeRecord fn vdir (joinPath pdir fn) d ∧
      r.path = cleanPath (strOr d.path fn) ∧
      (hasSeq idxPat (strOr d.path fn).data = false → r.path.data.head? = some '/') := by
  unfold loadPage at h
  rw [Option.map_eq_some'] at h
  obtain ⟨d, hd, hr⟩ := h
  subst hr
  refine ⟨rfl, joinPath_ne pdir fn, d, hd, rfl, rfl, ?_⟩
  intro hni
  show (cleanPath (strOr d.path fn)).data.head? = some '/'
  exact cleanList_head _ hni

/-- A world in which every path exists and every module loads as the empty
descriptor `{}`. -/
def cwEmptyMod : World :=
  { fs := fun _ => true
    modLoad := fun _ => some {}
    jsonLoad := fun _ => none
    mdLoad := fun _ => none }

/-- A world whose modules export a descriptor with an explicit path, as in
the spec's scenario of a numbered file overridden by `path`. -/
def cwExplicit : World :=
  { fs := fun _ => true
    modLoad := fun _ => some { path := some "/blog/uno" }
    jsonLoad := fun _ => none
    mdLoad := fun _ => none }

/-- Witness for C2 at the concrete file `blog/01-uno.ts` whose descriptor
carries the explicit path `/blog/uno`. -/
theorem loadPage_record_invariants_witness :
    ({ path := "/blog/uno", file := "pg/blog/01-uno.ts" } : PageData).file =
      joinPath "pg" "blog/01-uno.ts" ∧
    ({ path := "/blog/uno", file := "pg/blog/01-uno.ts" } : PageData).file ≠ "" ∧
    ∃ d : PageDefinition, pickDescriptor cwExplicit (joinPath "pg" "blog/01-uno.ts") = some d ∧
      ({ path := "/blog/uno", file := "pg/blog/01-uno.ts" } : PageData) =
        finalizeRecord "blog/01-uno.ts" "vw" (joinPath "pg" "blog/01-uno.ts") d ∧
      ({ path := "/blog/uno", file := "pg/blog/01-uno.ts" } : PageData).path =
        cleanPath (strOr d.path "blog/01-uno.ts") ∧
      (hasSeq idxPat (strOr d.path "blog/01-uno.ts").data = false →
        ({ path := "/blog/uno", file := "pg/blog/01-uno.ts" } : PageData).path.data.head? =
          some '/') :=
  loadPage_record_invariants cwExplicit "blog/01-uno.ts" "pg" "vw"
    { path := "/blog/uno", file := "pg/blog/01-uno.ts" } (by decide)

/-- C2 counterexample: for the file name `indexes.ts` the produced record's
path is `"es"`, which does not begin with `/`: the `/index`-removal step of
`cleanPath` eats the leading `/index` of `/indexes`. -/
theorem loadPage_path_without_slash :
    (loadPage cwEmptyMod "indexes.ts" "pg" "vw").map PageData.path = some "es" ∧
    ("es" : String).data.head? ≠ some '/' :=
  ⟨by decide, by decide⟩

/-- The three descriptor kinds `loadPage` distinguishes. -/
inductive DescKind where
  | module
  | json
  | md
deriving DecidableEq, Repr

/-- The kind whose loader actually decides `loadPage`'s result, derived
from the source's overwrite order: the markdown branch wins over the JSON
branch, which wins over the module branch; the markdown test is an
unanchored substring test, the other two are `$`-anchored extension
tests. -/
def kindOf (s : String) : Option DescKind :=
  if mdTest s then some .md
  else if jsonTest s then some .json
  else if jsTsTest s then some .module
  else none

/-- C5 (amended): for an existing file, `loadPage` uses exactly the one
loader selected by `kindOf` on the joined file path, so at most one
loader's result is used; selection is by the last matching branch, and the
markdown branch matches `.md` anywhere in the name, not only as the final
extension. -/
theorem loadPage_kind (w : World) (fn pdir vdir : String)
    (hfs : w.fs (joinPath pdir fn) = true) :
    loadPage w fn pdir vdir =
      (match kindOf (joinPath pdir fn) with
        | some .md => w.mdLoad (joinPath pdir fn)
        | some .json => w.jsonLoad (joinPath pdir fn)
        | some .module => w.modLoad (joinPath pdir fn)
        | none => none).map (finalizeRecord fn vdir (joinPath pdir fn)) := by
  unfold loadPage
  congr 1
  simp only [pickDescriptor, kindOf, isValidFile, hfs, Bool.true_and]
  by_cases hmd : mdTest (joinPath pdir fn) = true
  · simp [hmd]
  · by_cases hjson : jsonTest (joinPath pdir fn) = true
    · simp [hmd, hjson]
    · by_cases hjs : jsTsTest (joinPath pdir fn) = true
      · simp [hmd, hjson, hjs]
      · simp [hmd, hjson, hjs]

/-- A world whose three loaders return three distinguishable descriptors. -/
def cwThree : World :=
  { fs := fun _ => true
    modLoad := fun _ => some { status := some 1 }
    jsonLoad := fun _ => some { status := some 3 }
    mdLoad := fun _ => some { status := some 2 } }

/-- Witness for C5 at the concrete file `a.md.ts`. -/
theorem loadPage_kind_witness :
    loadPage cwThree "a.md.ts" "pg" "vw" =
      (match kindOf (joinPath "pg" "a.md.ts") with
        | some .md => cwThree.mdLoad (joinPath "pg" "a.md.ts")
        | some .json => cwThree.jsonLoad (joinPath "pg" "a.md.ts")
        | some .module => cwThree.modLoad (joinPath "pg" "a.md.ts")
        | none => none).map (finalizeRecord "a.md.ts" "vw" (joinPath "pg" "a.md.ts")) :=
  loadPage_kind cwThree "a.md.ts" "pg" "vw" (by decide)

/-- C5 counterexample: `a.md.ts` has the JS/TS module extension `.ts`, yet
`loadPage` returns the markdown loader's descriptor (status 2), not the
module loader's (status 1): the `/\.md/i` test is an unanchored substring
test and its branch overwrites the module branch. -/
theorem loadPage_kind_not_extension :
    (loadPage cwThree "a.md.ts" "pg" "vw").map PageData.status = some (some 2) ∧
    (loadPage cwThree "a.md.ts" "pg" "vw").map PageData.status ≠ some (some 1) :=
  ⟨by decide, by decide⟩

/-- C6 (amended): when every loader yields no descriptor at the file's path
(load or parse failure — e.g. an empty file, whose JSON parse fails),
`loadPage` returns no record; a descriptor that parses to the empty object
`{}`, however, is truthy in JS and does yield a record. -/
theorem loadPage_none_of_loaders_none (w : World) (fn pdir vdir : String)
    (h1 : w.modLoad (joinPath pdir fn) = none)
    (h2 : w.jsonLoad (joinPath pdir fn) = none)
    (h3 : w.mdLoad (joinPath pdir fn) = none) :
    loadPage w fn pdir vdir = none := by
  simp only [loadPage, pickDescriptor, h1, h2, h3]
  split_ifs <;> rfl

/-- A world in which every loader fails. -/
def cwNone : World :=
  { fs := fun _ => true
    modLoad := fun _ => none
    jsonLoad := fun _ => none
    mdLoad := fun _ => none }

/-- Witness for C6: with all loaders failing, no record is produced. -/
theorem loadPage_none_witness : loadPage cwNone "a.json" "pg" "vw" = none :=
  loadPage_none_of_loaders_none cwNone "a.json" "pg" "vw" rfl rfl rfl

/-- A world in which JSON files parse to the degenerate empty object `{}`. -/
def cwEmptyJson : World :=
  { fs := fun _ => true
    modLoad := fun _ => none
    jsonLoad := fun _ => some {}
    mdLoad := fun _ => none }

/-- C6 counterexample: a JSON file whose parsed content is the empty object
`{}` is not treated as absent: `loadPage` returns a record for it. -/
theorem loadPage_empty_object_yields_record :
    loadPage cwEmptyJson "a.json" "pg" "vw" ≠ none := by decide

/-! Claim theorems about `loadPages` ordering. -/

lemma pageLE_trans (lc : String → String → Int)
    (htrans : ∀ x y z, lc x y ≤ 0 → lc y z ≤ 0 → lc x z ≤ 0)
    (a b c : PageData) (hab : pageLE lc a b = true) (hbc : pageLE lc b c = true) :
    pageLE lc a c = true := by
  unfold pageLE at hab hbc ⊢
  by_cases h1 : depth a.file = depth b.file
  · rw [if_pos h1] at hab
    have hab2 := of_decide_eq_true hab
    by_cases h2 : depth b.file = depth c.file
    · rw [if_pos h2] at hbc
      have hbc2 := of_decide_eq_true hbc
      rw [if_pos (h1.trans h2)]
      exact decide_eq_true (htrans _ _ _ hab2 hbc2)
    · rw [if_neg h2] at hbc
      have hbc2 := of_decide_eq_true hbc
      rw [if_neg (by omega : ¬ depth a.file = depth c.file)]
      exact decide_eq_true (by omega)
  · rw [if_neg h1] at hab
    have hab2 := of_decide_eq_true hab
    by_cases h2 : depth b.file = depth c.file
    · rw [if_pos h2] at hbc
      rw [if_neg (by omega : ¬ depth a.file = depth c.file)]
      exact decide_eq_true (by omega)
    · rw [if_neg h2] at hbc
      have hbc2 := of_decide_eq_true hbc
      rw [if_neg (by omega : ¬ depth a.file = depth c.file)]
      exact decide_eq_true (by omega)

lemma pageLE_total (lc : String → String → Int)
    (htot : ∀ x y, lc x y ≤ 0 ∨ lc y x ≤ 0) (a b : PageData) :
    (pageLE lc a b || pageLE lc b a) = true := by
  unfold pageLE
  by_cases h : depth a.file = depth b.file
  · rw [if_pos h, if_pos h.symm]
    rcases htot a.file b.file with hle | hle
    · rw [decide_eq_true hle, Bool.true_or]
    · rw [decide_eq_true hle, Bool.or_true]
  · rw [if_neg h, if_neg (fun hc => h hc.symm)]
    rcases Nat.lt_or_ge (depth b.file) (depth a.file) with hlt | hge
    · rw [decide_eq_true hlt, Bool.true_or]
    · have hlt2 : depth a.file < depth b.file := by omega
      rw [decide_eq_true hlt2, Bool.or_true]

lemma pageLE_imp (lc : String → String → Int) (a b : PageData)
    (h : pageLE lc a b = true) :
    depth b.file ≤ depth a.file ∧
      (depth a.file = depth b.file → lc a.file b.file ≤ 0) := by
  unfold pageLE at h
  by_cases he : depth a.file = depth b.file
  · rw [if_pos he] at h
    exact ⟨Nat.le_of_eq he.symm, fun _ => of_decide_eq_true h⟩
  · rw [if_neg he] at h
    have hlt := of_decide_eq_true h
    exact ⟨Nat.le_of_lt hlt, fun hc => absurd hc he⟩

/-- C4: the index built by `loadPages` is sorted so that a record derived
from a deeper file never follows a shallower one, and records at equal
depth are ordered by the file-path comparison `lc` (the external
`localeCompare`, assumed a total preorder); the output is a permutation of
the loaded records, and — `loadPages` being a pure function of its inputs —
two builds from the same tree give the identical list. -/
theorem loadPages_sorted (w : World) (lc : String → String → Int)
    (fileList : List String) (pdir vdir : String)
    (htot : ∀ x y, lc x y ≤ 0 ∨ lc y x ≤ 0)
    (htrans : ∀ x y z, lc x y ≤ 0 → lc y z ≤ 0 → lc x z ≤ 0) :
    (loadPages w lc fileList pdir vdir).Pairwise (fun a b =>
      depth b.file ≤ depth a.file ∧
      (depth a.file = depth b.file → lc a.file b.file ≤ 0)) ∧
    (loadPages w lc fileList pdir vdir).Perm
      (fileList.filterMap (fun f => loadPage w f pdir vdir)) := by
  constructor
  · have hs := @List.sorted_mergeSort PageData (pageLE lc)
      (fun a b c => pageLE_trans lc htrans a b c)
      (fun a b => pageLE_total lc htot a b)
      (fileList.filterMap (fun f => loadPage w f pdir vdir))
    exact hs.imp (fun h => pageLE_imp lc _ _ h)
  · exact List.mergeSort_perm _ _

/-- The comparison used in the C4 witness: a concrete total preorder. -/
def lcLex (a b : String) : Int := if a ≤ b then -1 else 1

lemma lcLex_le (a b : String) : lcLex a b ≤ 0 ↔ a ≤ b := by
  unfold lcLex
  by_cases h : a ≤ b
  · rw [if_pos h]
    exact ⟨fun _ => h, fun _ => by omega⟩
  · rw [if_neg h]
    constructor
    · intro hc; omega
    · intro hc; exact absurd hc h

lemma lcLex_tot : ∀ x y : String, lcLex x y ≤ 0 ∨ lcLex y x ≤ 0 := by
  intro x y
  rcases le_total x y with h | h
  · exact Or.inl ((lcLex_le x y).mpr h)
  · exact Or.inr ((lcLex_le y x).mpr h)

lemma lcLex_trans : ∀ x y z : String, lcLex x y ≤ 0 → lcLex y z ≤ 0 → lcLex x z ≤ 0 := by
  intro x y z h1 h2
  exact (lcLex_le x z).mpr (le_trans ((lcLex_le x y).mp h1) ((lcLex_le y z).mp h2))

/-- Witness for C4 at a concrete world, comparison and file list. -/
theorem loadPages_sorted_witness :
    (loadPages cwEmptyMod lcLex ["a/b.ts", "c.ts"] "pg" "vw").Pairwise (fun a b =>
      depth b.file ≤ depth a.file ∧
      (depth a.file = depth b.file → lcLex a.file b.file ≤ 0)) ∧
    (loadPages cwEmptyMod lcLex ["a/b.ts", "c.ts"] "pg" "vw").Perm
      (["a/b.ts", "c.ts"].filterMap (fun f => loadPage cwEmptyMod f "pg" "vw")) :=
  loadPages_sorted cwEmptyMod lcLex ["a/b.ts", "c.ts"] "pg" "vw" lcLex_tot lcLex_trans

/-! Claim theorems about the route compiler and handlers. -/

/-- C7: a record with a truthy `redirect` compiles, for every file-system
and module-loading oracle, to the redirect handler carrying the record's
optional status, with no diagnostic emitted — `loadView` is never
consulted; running that handler yields an HTTP redirect to the destination
whose status defaults to 302 when the record carries none. -/
theorem createPage_redirect (w : World) (lm : String → Option ModVal × List Warning)
    (pd : PageData) (pages : List PageData) (dest : String)
    (render : Option Nat → String → Resp) (ctx : Nat)
    (h1 : pd.redirect = some dest) (h2 : dest ≠ "") :
    createPage w lm pd pages = (some (.redirect dest pd.status), []) ∧
    runHandler render (.redirect dest pd.status) ctx =
      .ok { status := redirectStatus pd.status, location := some dest, body := "" } := by
  constructor
  · unfold createPage
    rw [h1]
    dsimp only
    rw [if_neg h2]
    rfl
  · rfl

/-- The redirect record of the C7 witness. -/
def pdRedirect : PageData :=
  { path := "/old", redirect := some "/new", status := some 301, file := "pg/old.tsx" }

/-- The rendering middleware used in concrete scenarios. -/
def renderC : Option Nat → String → Resp := fun st m => { status := st.getD 200, body := m }

/-- A module oracle that always fails silently. -/
def lmNone : String → Option ModVal × List Warning := fun _ => (none, [])

/-- Witness for C7 at a concrete redirect record (invalid view oracles). -/
theorem createPage_redirect_witness :
    createPage cwNone lmNone pdRedirect [] = (some (.redirect "/new" pdRedirect.status), []) ∧
    runHandler renderC (.redirect "/new" pdRedirect.status) 0 =
      .ok { status := redirectStatus pdRedirect.status, location := some "/new", body := "" } :=
  createPage_redirect cwNone lmNone pdRedirect [] "/new" renderC 0 rfl (by decide)

/-- C8: `loadView` is total (it is a function into an optional view) and
every absent result is accompanied by at least one logged diagnostic, for
all oracles; and a record that compiles to no handler contributes no route
while `createPages` still registers every other record of the list. -/
theorem loadView_total_and_skip :
    (∀ (w : World) (lm : String → Option ModVal × List Warning) (pd : PageData),
      (loadView w lm pd).1 = none → (loadView w lm pd).2 ≠ []) ∧
    (∀ (w : World) (lm : String → Option ModVal × List Warning)
      (l1 l2 : List PageData) (bad : PageData),
      (createPage w lm bad (l1 ++ bad :: l2)).1 = none →
      createPages w lm (l1 ++ bad :: l2) =
        (l1 ++ l2).filterMap (fun pd =>
          ((createPage w lm pd (l1 ++ bad :: l2)).1).map (fun h => (pd.path, h)))) := by
  constructor
  · intro w lm pd
    unfold loadView
    cases hv : pd.view with
    | none => intro _; simp
    | some v =>
      dsimp only
      by_cases hve : v = ""
      · rw [if_pos hve]; intro _; simp
      · rw [if_neg hve]
        by_cases hfs : (!(w.fs v && jsTsTest v)) = true
        · rw [if_pos hfs]; intro _; simp
        · rw [if_neg hfs]
          rcases hlm : lm v with ⟨mv, ws⟩
          cases mv with
          | none => intro _; simp
          | some mval =>
            cases mval with
            | fn f => intro hcon; simp at hcon
            | value => intro _; simp
  · intro w lm l1 l2 bad hbad
    unfold createPages
    simp [List.filterMap_append, List.filterMap_cons, hbad]

/-- The view-less record of the C8 witness. -/
def pdNoView : PageData := { path := "/t", file := "pg/t.tsx" }

/-- Witness for C8: a record with no view gets a diagnostic, no handler and
no route, while the rest of the list (here empty) still compiles. -/
theorem loadView_total_and_skip_witness :
    (loadView cwNone lmNone pdNoView).2 ≠ [] ∧
    createPages cwNone lmNone ([] ++ pdNoView :: []) =
      ([] ++ []).filterMap (fun pd =>
        ((createPage cwNone lmNone pd ([] ++ pdNoView :: [])).1).map (fun h => (pd.path, h))) :=
  ⟨loadView_total_and_skip.1 cwNone lmNone pdNoView rfl,
   loadView_total_and_skip.2 cwNone lmNone [] [] pdNoView rfl⟩

/-- The response thrown by the view in the C9 scenario. -/
def teapotResp : Resp := { status := 418, body := "Custom response" }

/-- A view that raises a fully-formed response as control flow. -/
def throwingView : ViewFn := fun _ => .thrown (.resp teapotResp)

/-- A module oracle whose default export is `throwingView`. -/
def lmThrowing : String → Option ModVal × List Warning :=
  fun _ => (some (.fn throwingView), [])

/-- The page record of the C9 scenario. -/
def pdWithView : PageData :=
  { path := "/test", view := some "vw/Test.tsx", file := "pg/test.tsx" }

/-- C9 (code behavior at the failing input): the handler compiled for a
non-redirect record propagates a response thrown by the view as an
exception instead of returning it — the handler body installs no catch.
The repo's own test (`handles Response objects thrown from view` in
src/index.test.ts) and the spec expect the thrown response to be returned
verbatim as a successful outcome. -/
theorem runHandler_thrown_response_escapes :
    (createPage cwNone lmThrowing pdWithView []).1 =
      some (.page (stripRedirect pdWithView) throwingView []) ∧
    runHandler renderC (.page (stripRedirect pdWithView) throwingView []) 0 =
      .error (.resp teapotResp) :=
  ⟨rfl, rfl⟩
